import Mathlib

/-!
# steven-go: protocol handler (`handler.go`) and formatted text (`ui/formatted.go`)

A shallow embedding of the packet handlers of `handler.go` and of
`formatState.appendText` of `ui/formatted.go`.

Conventions of the embedding.

* The process-wide variables the handlers touch (`chunkMap`, `ready`,
  `render.Camera`, `writeChan`) are the fields of one record, `Client`, and every
  handler is a function from `Client` to `Client`.
* Calls into code that is not part of the two files (`chunk.free`,
  `chunkMap.UpdateBlock`, `sendPluginMessage`, `fmt.Printf`, a `go` statement) are
  recorded, in call order, in log fields of `Client`.
* `*chunk` pointers are modelled by value: the chunk map owns one chunk per key,
  and a mutation through the pointer is written back under the same key.
* Go `int` is 64-bit two's complement: `wrapInt` is applied where the source does
  arithmetic on `int`.
* A panic is the `error` case of `Except`.
-/

namespace Steven

/-! ## Machine integers -/

/-- Two's complement wrap of a mathematical integer to Go's 64-bit `int`. -/
def wrapInt (n : Int) : Int := (n + 9223372036854775808) % 18446744073709551616 - 9223372036854775808

/-- Conversion `uint16(v)` of a signed integer: the low 16 bits. -/
def toUint16 (v : Int) : Nat := (v % 65536).toNat

/-- A Go `int32` (also `protocol.VarInt`): an integer in the 32-bit signed range. -/
abbrev int32 := { n : Int // -2147483648 ≤ n ∧ n < 2147483648 }

/-- A Go `byte`. -/
abbrev byte := Fin 256

/-- A Go `uint16`. -/
abbrev uint16 := Fin 65536

/-- A `float64`, kept as its IEEE-754 bit pattern: the handlers only copy such values. -/
abbrev float64 := Nat

/-- A `float32`, kept as its IEEE-754 bit pattern. -/
abbrev float32 := Nat

/-! ## World data -/

/-- The key of the chunk map: `chunkPosition{X, Z int}`. -/
structure chunkPosition where
  X : Int
  Z : Int
deriving DecidableEq, Repr

/-- A block value, as returned by `GetBlockByCombinedID`. -/
structure Block where
  id : Nat
deriving DecidableEq, Repr

/-- Modelled from the spec: the `chunk` type is declared outside the two files.
A chunk has its own coordinates (`chunk.X`, `chunk.Z`, read by `SetBlockBatch`) and
"owns its block-type grid"; the grid is kept as the list of writes made to it,
newest first. -/
structure chunk where
  X : Int
  Z : Int
  grid : List ((Int × Int × Int) × Block)
deriving DecidableEq, Repr

/-- The block a never-written grid cell holds. -/
def Block.air : Block := ⟨0⟩

/-- Look a cell up in a list of writes, newest first. -/
def gridLookup (p : Int × Int × Int) : List ((Int × Int × Int) × Block) → Option Block
  | [] => none
  | (q, b) :: rest => if q = p then some b else gridLookup p rest

/-- Modelled from the spec: the block held at a local position of a chunk's grid. -/
def chunk.block (c : chunk) (x y z : Int) : Block :=
  (gridLookup (x, y, z) c.grid).getD Block.air

/-- Modelled from the spec: `chunk.setBlock` (declared outside the two files)
"write[s] the block value into that chunk's grid". -/
def chunk.setBlock (c : chunk) (b : Block) (x y z : Int) : chunk :=
  { c with grid := ((x, y, z), b) :: c.grid }

/-- Look a key up in a list of map entries. -/
def entryLookup (p : chunkPosition) : List (chunkPosition × chunk) → Option chunk
  | [] => none
  | (k, v) :: rest => if k = p then some v else entryLookup p rest

/-- The Go map `map[chunkPosition]*chunk`: finitely many entries, no key twice.
The order of `entries` stands for the (unspecified) iteration order of the map. -/
structure ChunkMap where
  entries : List (chunkPosition × chunk)
  nodup : (entries.map Prod.fst).Nodup

/-- The empty map `map[chunkPosition]*chunk{}`. -/
def ChunkMap.empty : ChunkMap := ⟨[], List.nodup_nil⟩

/-- Map indexing `chunkMap[pos]` (`none` is the `nil` / not-`ok` result). -/
def ChunkMap.get (m : ChunkMap) (p : chunkPosition) : Option chunk :=
  entryLookup p m.entries

/-- The keys of the map. -/
def ChunkMap.keys (m : ChunkMap) : List chunkPosition := m.entries.map Prod.fst

/-- The chunks held by the map. -/
def ChunkMap.values (m : ChunkMap) : List chunk := m.entries.map Prod.snd

/-- The builtin `delete(chunkMap, pos)`. -/
def ChunkMap.delete (m : ChunkMap) (p : chunkPosition) : ChunkMap :=
  ⟨m.entries.filter (fun e => decide (e.1 ≠ p)),
   List.Nodup.sublist (List.Sublist.map Prod.fst (List.filter_sublist m.entries)) m.nodup⟩

/-- The entry `e` after `f` has been applied to the chunk stored under `p`. -/
def modifyAt (p : chunkPosition) (f : chunk → chunk) (e : chunkPosition × chunk) :
    chunkPosition × chunk :=
  if e.1 = p then (e.1, f e.2) else e

/-- A mutation of the chunk stored under `p`, made through its pointer. -/
def ChunkMap.modify (m : ChunkMap) (p : chunkPosition) (f : chunk → chunk) : ChunkMap :=
  ⟨m.entries.map (modifyAt p f), by
    have h : (m.entries.map (modifyAt p f)).map Prod.fst = m.entries.map Prod.fst := by
      rw [List.map_map]
      apply List.map_congr_left
      intro e _
      by_cases hk : e.1 = p <;> simp [modifyAt, hk]
    rw [h]
    exact m.nodup⟩

/-! ## Protocol messages (package `protocol`, declared outside the two files) -/

/-- Packet `protocol.ChunkData`. -/
structure protocol.ChunkData where
  ChunkX : int32
  ChunkZ : int32
  New : Bool
  BitMask : uint16
  Data : List byte

/-- One metadata record of a `protocol.ChunkDataBulk`. -/
structure protocol.ChunkMeta where
  ChunkX : int32
  ChunkZ : int32
  BitMask : uint16

/-- Packet `protocol.ChunkDataBulk`. -/
structure protocol.ChunkDataBulk where
  SkyLight : Bool
  Meta : List protocol.ChunkMeta
  Data : List byte

/-- A decoded `protocol.Position`: the results of its methods `X()`, `Y()`, `Z()`. -/
structure protocol.Position where
  X : Int
  Y : Int
  Z : Int

/-- Packet `protocol.BlockChange`. -/
structure protocol.BlockChange where
  Location : protocol.Position
  BlockID : int32

/-- One record of a `protocol.MultiBlockChange`: a packed local (x, z), a height and
a block id. -/
structure protocol.BlockChangeRecord where
  XZ : byte
  Y : byte
  BlockID : int32

/-- Packet `protocol.MultiBlockChange`. -/
structure protocol.MultiBlockChange where
  ChunkX : int32
  ChunkZ : int32
  Records : List protocol.BlockChangeRecord

/-- Packet `protocol.TeleportPlayer`. -/
structure protocol.TeleportPlayer where
  X : float64
  Y : float64
  Z : float64
  Yaw : float32
  Pitch : float32
  Flags : byte

/-- Packet `protocol.PlayerPositionLook`, sent to the server. -/
structure protocol.PlayerPositionLook where
  X : float64
  Y : float64
  Z : float64
  Yaw : float32
  Pitch : float32
  OnGround : Bool
deriving DecidableEq, Repr

/-- The camera `render.Camera`. -/
structure Camera where
  X : float64
  Y : float64
  Z : float64
  Yaw : float64
  Pitch : float64
deriving DecidableEq, Repr

/-- The arguments of one call `loadChunk(x, z, data, mask, sky, isNew)`. -/
structure LoadCall where
  x : Int
  z : Int
  data : List byte
  mask : uint16
  sky : Bool
  isNew : Bool
deriving DecidableEq, Repr

/-- A goroutine started by a `go` statement of a handler. -/
inductive Task where
  | loadChunk (call : LoadCall)
  | bulk (c : protocol.ChunkDataBulk)

/-! ## The state the handlers act on -/

/-- The package-level state of the client, with the logs of outgoing calls. -/
structure Client where
  chunkMap : ChunkMap
  ready : Bool
  Camera : Camera
  writeChan : List protocol.PlayerPositionLook
  freed : List chunk
  updates : List (Int × Int × Int)
  spawned : List Task
  pluginSent : List String
  stdout : List String

/-- The functions of the repository that the handlers call and that are declared
outside the two files; a handler's behaviour is stated for every choice of them. -/
structure Deps where
  GetBlockByCombinedID : Nat → Block
  loadChunk : LoadCall → Int
  handlePluginMessage : String → List byte → Bool → Client → Except String Client
  cameraYaw : float32 → float64
  cameraPitch : float32 → float64

/-! ## The handlers of `handler.go` -/

/-- The call `c.free()`: `chunk.free` is declared outside the two files, so the call is
recorded in `freed`. -/
def free (s : Client) (c : chunk) : Client :=
  { s with freed := s.freed ++ [c] }

/-- Handler `Respawn`: `for _, c := range chunkMap { c.free() }`, then the map is replaced
by an empty one. -/
def handler.Respawn (s : Client) : Client :=
  { s.chunkMap.entries.foldl (fun st e => free st e.2) s with chunkMap := ChunkMap.empty }

/-- Handler `ChunkData`: an empty, new column removes the chunk at its position;
anything else starts a `loadChunk` goroutine. -/
def handler.ChunkData (c : protocol.ChunkData) (s : Client) : Client :=
  if c.BitMask.val = 0 ∧ c.New = true then
    let pos : chunkPosition := ⟨c.ChunkX.val, c.ChunkZ.val⟩
    match s.chunkMap.get pos with
    | some ch => { free s ch with chunkMap := s.chunkMap.delete pos }
    | none => s
  else
    { s with spawned := s.spawned ++
        [Task.loadChunk ⟨c.ChunkX.val, c.ChunkZ.val, c.Data, c.BitMask, true, c.New⟩] }

/-- Handler `ChunkDataBulk`: only starts the goroutine (its body is `bulkLoop`). -/
def handler.ChunkDataBulk (c : protocol.ChunkDataBulk) (s : Client) : Client :=
  { s with spawned := s.spawned ++ [Task.bulk c] }

/-- What the goroutine of `ChunkDataBulk` has done when it stops: the `loadChunk`
calls it made, its `offset`, and whether it stopped by a panic. -/
structure BulkRun where
  calls : List LoadCall
  offset : Int
  panicked : Bool
deriving DecidableEq, Repr

/-- The call `loadChunk(int(meta.ChunkX), int(meta.ChunkZ), data[offset:], meta.BitMask,
c.SkyLight, true)` made for the record `m` at byte offset `offset`. -/
def bulkCall (data : List byte) (sky : Bool) (m : protocol.ChunkMeta) (offset : Int) : LoadCall :=
  ⟨m.ChunkX.val, m.ChunkZ.val, data.drop offset.toNat, m.BitMask, sky, true⟩

/-- The loop of the goroutine of `ChunkDataBulk` over the remaining records:
`offset += loadChunk(x, z, data[offset:], mask, c.SkyLight, true)`.
The slice expression `data[offset:]` panics when `offset` is outside `0..len(data)`. -/
def bulkLoop (d : Deps) (data : List byte) (sky : Bool) :
    List protocol.ChunkMeta → Int → List LoadCall → BulkRun
  | [], offset, calls => ⟨calls, offset, false⟩
  | m :: rest, offset, calls =>
    if offset < 0 ∨ (data.length : Int) < offset then
      ⟨calls, offset, true⟩
    else
      bulkLoop d data sky rest (wrapInt (offset + d.loadChunk (bulkCall data sky m offset)))
        (calls ++ [bulkCall data sky m offset])

/-- The sum of byte counts in Go `int` arithmetic, starting from 0. -/
def goSum (ns : List Int) : Int := ns.foldl (fun a n => wrapInt (a + n)) 0

/-- The body of the goroutine of `ChunkDataBulk`: `offset := 0; data := c.Data; for ...`. -/
def bulkBody (d : Deps) (c : protocol.ChunkDataBulk) : BulkRun :=
  bulkLoop d c.Data c.SkyLight c.Meta 0 []

/-- Modelled from the spec: `chunkMap.SetBlock` (declared outside the two files)
"locate[s] the chunk owning pos (derived by coordinate shift of the global block
position into column-local coordinates), write[s] the block value into that chunk's
grid" and "never mutate[s] a chunk that does not yet exist". -/
def ChunkMap.SetBlock (m : ChunkMap) (b : Block) (x y z : Int) : ChunkMap :=
  let pos : chunkPosition := ⟨x >>> (4 : Nat), z >>> (4 : Nat)⟩
  match m.get pos with
  | none => m
  | some _ => m.modify pos (fun ch => ch.setBlock b (x % 16) y (z % 16))

/-- Modelled from the spec: `chunkMap.UpdateBlock` (declared outside the two files)
"notifies render-side that geometry at pos and its neighbor chunk-boundary geometry
must be rebuilt"; the notification is recorded in `updates`. -/
def UpdateBlock (s : Client) (x y z : Int) : Client :=
  { s with updates := s.updates ++ [(x, y, z)] }

/-- Handler `SetBlock` (packet `BlockChange`). -/
def handler.SetBlock (d : Deps) (b : protocol.BlockChange) (s : Client) : Client :=
  let block := d.GetBlockByCombinedID (toUint16 b.BlockID.val)
  let s1 := { s with chunkMap := s.chunkMap.SetBlock block b.Location.X b.Location.Y b.Location.Z }
  UpdateBlock s1 b.Location.X b.Location.Y b.Location.Z

/-- The local x of a record: `int(r.XZ>>4)`. -/
def protocol.BlockChangeRecord.x (r : protocol.BlockChangeRecord) : Int := ((r.XZ.val >>> 4 : Nat) : Int)

/-- The height of a record: `int(r.Y)`. -/
def protocol.BlockChangeRecord.y (r : protocol.BlockChangeRecord) : Int := (r.Y.val : Int)

/-- The local z of a record: `int(r.XZ&0xF)`. -/
def protocol.BlockChangeRecord.z (r : protocol.BlockChangeRecord) : Int := ((r.XZ.val &&& 0xF : Nat) : Int)

/-- The global x of a local x in the column of chunk `c`: `(chunk.X<<4)+x`. -/
def globalX (c : chunk) (x : Int) : Int := wrapInt (wrapInt (c.X * 16) + x)

/-- The global z of a local z in the column of chunk `c`: `(chunk.Z<<4)+z`. -/
def globalZ (c : chunk) (z : Int) : Int := wrapInt (wrapInt (c.Z * 16) + z)

/-- The body of the loop of `SetBlockBatch` for one record `r`; `pos` is the key under
which the chunk was found. -/
def batchStep (d : Deps) (pos : chunkPosition) (s : Client) (r : protocol.BlockChangeRecord) : Client :=
  match s.chunkMap.get pos with
  | none => s
  | some ch =>
    let block := d.GetBlockByCombinedID (toUint16 r.BlockID.val)
    let s1 := { s with chunkMap := s.chunkMap.modify pos (fun c => c.setBlock block r.x r.y r.z) }
    UpdateBlock s1 (globalX ch r.x) r.y (globalZ ch r.z)

/-- Handler `SetBlockBatch` (packet `MultiBlockChange`). -/
def handler.SetBlockBatch (d : Deps) (b : protocol.MultiBlockChange) (s : Client) : Client :=
  let pos : chunkPosition := ⟨b.ChunkX.val, b.ChunkZ.val⟩
  match s.chunkMap.get pos with
  | none => s
  | some _ => b.Records.foldl (batchStep d pos) s

/-- Handler `JoinGame`. -/
def handler.JoinGame (s : Client) : Client :=
  { s with ready := true, pluginSent := s.pluginSent ++ ["Steven"] }

/-- The acknowledgement `Teleport` sends for `t`. -/
def teleportAck (t : protocol.TeleportPlayer) : protocol.PlayerPositionLook :=
  { X := t.X, Y := t.Y, Z := t.Z, Yaw := t.Yaw, Pitch := t.Pitch, OnGround := false }

/-- Handler `Teleport`: move the camera, then send a `PlayerPositionLook` on `writeChan`. -/
def handler.Teleport (d : Deps) (t : protocol.TeleportPlayer) (s : Client) : Client :=
  { s with
    Camera := { X := t.X, Y := t.Y, Z := t.Z, Yaw := d.cameraYaw t.Yaw, Pitch := d.cameraPitch t.Pitch },
    writeChan := s.writeChan ++ [teleportAck t] }

/-! ## Dispatch -/

/-- A message handed to `Handle`: the packets that have a handler method, and any
other value (named by its dynamic type). -/
inductive Packet where
  | ServerMessage (type : Nat) (message : String)
  | Respawn
  | ChunkData (c : protocol.ChunkData)
  | ChunkDataBulk (c : protocol.ChunkDataBulk)
  | BlockChange (b : protocol.BlockChange)
  | MultiBlockChange (b : protocol.MultiBlockChange)
  | JoinGame
  | PluginMessageClientbound (channel : String) (data : List byte)
  | pmMinecraftBrand (brand : String)
  | TeleportPlayer (t : protocol.TeleportPlayer)
  | other (typeName : String)

/-- The dynamic type of a message, the key of the handler table (`reflect.Type`). -/
inductive PacketType where
  | ServerMessage
  | Respawn
  | ChunkData
  | ChunkDataBulk
  | BlockChange
  | MultiBlockChange
  | JoinGame
  | PluginMessageClientbound
  | pmMinecraftBrand
  | TeleportPlayer
  | other (typeName : String)
deriving DecidableEq, Repr

/-- The dynamic type `reflect.TypeOf(packet)`. -/
def Packet.typeOf : Packet → PacketType
  | .ServerMessage _ _ => .ServerMessage
  | .Respawn => .Respawn
  | .ChunkData _ => .ChunkData
  | .ChunkDataBulk _ => .ChunkDataBulk
  | .BlockChange _ => .BlockChange
  | .MultiBlockChange _ => .MultiBlockChange
  | .JoinGame => .JoinGame
  | .PluginMessageClientbound _ _ => .PluginMessageClientbound
  | .pmMinecraftBrand _ => .pmMinecraftBrand
  | .TeleportPlayer _ => .TeleportPlayer
  | .other n => .other n

/-- A bound method stored in the table (`reflect.Value`): called with the message, it
returns normally with the new state or panics. -/
abbrev Method := Packet → Client → Except String Client

/-- The handler table `type handler map[reflect.Type]reflect.Value`. -/
abbrev handler := PacketType → Option Method

/-- The panic of `reflect.Value.Call` on an argument of the wrong type. -/
def callMismatch : Except String Client := .error "reflect: Call using wrong argument type"

/-- The table `Init` builds: one entry per exported method of `handler` whose single
parameter is a packet or a plugin message, keyed by the type of that parameter. -/
def handler.Init (d : Deps) : handler
  | .ServerMessage => some (fun p s => match p with
      | .ServerMessage t m => .ok { s with stdout := s.stdout ++ [s!"MSG({t}): {m}\n"] }
      | _ => callMismatch)
  | .Respawn => some (fun p s => match p with
      | .Respawn => .ok (handler.Respawn s)
      | _ => callMismatch)
  | .ChunkData => some (fun p s => match p with
      | .ChunkData c => .ok (handler.ChunkData c s)
      | _ => callMismatch)
  | .ChunkDataBulk => some (fun p s => match p with
      | .ChunkDataBulk c => .ok (handler.ChunkDataBulk c s)
      | _ => callMismatch)
  | .BlockChange => some (fun p s => match p with
      | .BlockChange b => .ok (handler.SetBlock d b s)
      | _ => callMismatch)
  | .MultiBlockChange => some (fun p s => match p with
      | .MultiBlockChange b => .ok (handler.SetBlockBatch d b s)
      | _ => callMismatch)
  | .JoinGame => some (fun p s => match p with
      | .JoinGame => .ok (handler.JoinGame s)
      | _ => callMismatch)
  | .PluginMessageClientbound => some (fun p s => match p with
      | .PluginMessageClientbound ch data => d.handlePluginMessage ch data false s
      | _ => callMismatch)
  | .pmMinecraftBrand => some (fun p s => match p with
      | .pmMinecraftBrand b => .ok { s with stdout := s.stdout ++ [s!"The server is running: {b}\n"] }
      | _ => callMismatch)
  | .TeleportPlayer => some (fun p s => match p with
      | .TeleportPlayer t => .ok (handler.Teleport d t s)
      | _ => callMismatch)
  | .other _ => none

/-- Method `Handle`: look the dynamic type of the message up in the table and, when
there is an entry, call it. There is no `recover`. -/
def handler.Handle (h : handler) (packet : Packet) (s : Client) : Except String Client :=
  match h packet.typeOf with
  | some m => m packet s
  | none => .ok s

/-! ## Formatted text (`ui/formatted.go`) -/

namespace ui

/-- The `float64` arithmetic `appendText` uses and the functions of the renderer it
calls, over an arbitrary carrier `F`: what is proved holds for every interpretation,
IEEE-754 included. `gt a b` is the comparison `a > b`. -/
structure Metrics (F : Type) where
  zero : F
  two : F
  add : F → F → F
  gt : F → F → Bool
  ofInt : Int → F
  SizeOfCharacter : Char → F
  textWidth : List Char → F

/-- The line feed, the rune `appendText` breaks lines at. -/
def newline : Char := Char.ofNat 10

/-- The colours of package `chat`; any other colour string is `other`. -/
inductive Color where
  | Black | DarkBlue | DarkGreen | DarkAqua | DarkRed | DarkPurple | Gold | Gray
  | DarkGray | Blue | Green | Aqua | Red | LightPurple | Yellow | White | other
deriving DecidableEq, Repr

/-- Function `colorRGB`. -/
def colorRGB : Color → Nat × Nat × Nat
  | .Black => (0, 0, 0)
  | .DarkBlue => (0, 0, 170)
  | .DarkGreen => (0, 170, 0)
  | .DarkAqua => (0, 170, 170)
  | .DarkRed => (170, 0, 0)
  | .DarkPurple => (170, 0, 170)
  | .Gold => (255, 170, 0)
  | .Gray => (170, 170, 170)
  | .DarkGray => (85, 85, 85)
  | .Blue => (85, 85, 255)
  | .Green => (85, 255, 85)
  | .Aqua => (85, 255, 255)
  | .Red => (255, 85, 85)
  | .LightPurple => (255, 85, 255)
  | .Yellow => (255, 255, 85)
  | .White => (255, 255, 255)
  | .other => (255, 255, 255)

/-- A drawable `Text`: its string, position, colour and measured width. -/
structure Text (F : Type) where
  value : List Char
  x : F
  y : F
  rgb : Nat × Nat × Nat
  Width : F

/-- Function `NewText(val, x, y, r, g, b)`. -/
def NewText {F : Type} (M : Metrics F) (val : List Char) (x y : F) (rgb : Nat × Nat × Nat) :
    Text F :=
  { value := val, x := x, y := y, rgb := rgb, Width := M.textWidth val }

/-- The fields of `Formatted` that `appendText` reads and writes. -/
structure Formatted (F : Type) where
  MaxWidth : F
  Text : List (Text F)

/-- Type `formatState`; `lines` counts line breaks and is kept unbounded. -/
structure formatState (F : Type) where
  f : Formatted F
  lines : Int
  offset : F
  width : F

/-- The variables live across the loop of `appendText`: the state, and the locals `width`
and `last`. -/
structure LoopState (F : Type) where
  st : formatState F
  width : F
  last : Nat

/-- The string slice `text[lo:hi]`. The text is its sequence of runes and offsets count
runes: every slice bound `appendText` uses is the offset of a rune, or the offset just
after a line feed, which is one byte long. -/
def slice (text : List Char) (lo hi : Nat) : List Char := (text.drop lo).take (hi - lo)

/-- The test of the loop of `appendText` for the rune `r`:
`(f.f.MaxWidth > 0 && f.offset+width+s > f.f.MaxWidth) || r == '\n'`. -/
def breaksAt {F : Type} (M : Metrics F) (ls : LoopState F) (r : Char) : Bool :=
  (M.gt ls.st.f.MaxWidth M.zero &&
    M.gt (M.add (M.add ls.st.offset ls.width) (M.add (M.SizeOfCharacter r) M.two))
      ls.st.f.MaxWidth) || r == newline

/-- The body of the `if` in the loop of `appendText`: emit `text[last:i]` as a `Text`,
move `last` to `i` (past the rune when it is a line feed) and start a new line. -/
def breakLine {F : Type} (M : Metrics F) (text : List Char) (color : Color)
    (ls : LoopState F) (i : Nat) (r : Char) : LoopState F :=
  { st := { f := { MaxWidth := ls.st.f.MaxWidth,
                   Text := ls.st.f.Text ++
                     [NewText M (slice text ls.last i) ls.st.offset
                       (M.ofInt (ls.st.lines * 18 + 1)) (colorRGB color)] },
            lines := ls.st.lines + 1,
            offset := M.zero,
            width := ls.st.width },
    width := M.zero,
    last := if r == newline then i + 1 else i }

/-- The end of the body of the loop of `appendText`: `width += s`, and `f.width` is raised
to `f.offset + width` when that is larger. -/
def widen {F : Type} (M : Metrics F) (ls : LoopState F) (s : F) : LoopState F :=
  { st := if M.gt (M.add ls.st.offset (M.add ls.width s)) ls.st.width then
            { f := ls.st.f, lines := ls.st.lines, offset := ls.st.offset,
              width := M.add ls.st.offset (M.add ls.width s) }
          else ls.st,
    width := M.add ls.width s,
    last := ls.last }

/-- The body of the loop of `appendText` for the rune `r` at offset `i`. -/
def appendStep {F : Type} (M : Metrics F) (text : List Char) (color : Color)
    (ls : LoopState F) (i : Nat) (r : Char) : LoopState F :=
  widen M (if breaksAt M ls r then breakLine M text color ls i r else ls)
    (M.add (M.SizeOfCharacter r) M.two)

/-- The loop `for i, r := range text` of `appendText`, from offset `i` over the runes
still to come. -/
def appendLoop {F : Type} (M : Metrics F) (text : List Char) (color : Color) :
    List Char → Nat → LoopState F → LoopState F
  | [], _, ls => ls
  | r :: rest, i, ls => appendLoop M text color rest (i + 1) (appendStep M text color ls i r)

/-- The state when the loop of `appendText` ends. -/
def appendTextLoop {F : Type} (M : Metrics F) (text : List Char) (color : Color)
    (st : formatState F) : LoopState F :=
  appendLoop M text color text 0 { st := st, width := M.zero, last := 0 }

/-- Method `formatState.appendText`. -/
def formatState.appendText {F : Type} (M : Metrics F) (text : List Char) (color : Color)
    (st : formatState F) : formatState F :=
  let ls := appendTextLoop M text color st
  if ls.last ≠ text.length then
    let txt := NewText M (text.drop ls.last) ls.st.offset
      (M.ofInt (ls.st.lines * 18 + 1)) (colorRGB color)
    let off := M.add ls.st.offset (M.add txt.Width M.two)
    { f := { MaxWidth := ls.st.f.MaxWidth, Text := ls.st.f.Text ++ [txt] },
      lines := ls.st.lines,
      offset := off,
      width := if M.gt off ls.st.width then off else ls.st.width }
  else ls.st

/-- The text without its line feeds. -/
def withoutNewlines (t : List Char) : List Char := t.filter (fun c => !(c == newline))

/-- The invariant of the loop of `appendText` once the runes `pre` have been handled:
`segs` are the `Text` elements appended so far to the `T0` the state started with, and
`L0` is the line counter it started with. -/
structure LoopInv {F : Type} (M : Metrics F) (T0 : List (Text F)) (L0 : Int) (MW : F)
    (pre : List Char) (ls : LoopState F) (segs : List (Text F)) : Prop where
  last_le : ls.last ≤ pre.length
  texts : ls.st.f.Text = T0 ++ segs
  joined : (segs.map Text.value).flatten ++ pre.drop ls.last = withoutNewlines pre
  clean : ∀ t ∈ segs, newline ∉ t.value
  pending : newline ∉ pre.drop ls.last
  counted : ls.st.lines = L0 + (segs.length : Int)
  maxw : ls.st.f.MaxWidth = MW
  breaks : M.gt MW M.zero = false → segs.length = pre.count newline

/-- Exact integer arithmetic with every rune six units wide: one interpretation of
`Metrics`. -/
def intMetrics : Metrics Int :=
  { zero := 0, two := 2, add := fun a b => a + b, gt := fun a b => decide (a > b),
    ofInt := fun n => n, SizeOfCharacter := fun _ => 6,
    textWidth := fun t => 8 * (t.length : Int) }

/-- An empty state of a `Formatted` without a maximal width (`MaxWidth` is -1). -/
def freshState : formatState Int :=
  { f := { MaxWidth := -1, Text := [] }, lines := 0, offset := 0, width := 0 }

/-- The text "ab", a line feed, "c", a line feed. -/
def sampleText : List Char := [Char.ofNat 97, Char.ofNat 98, newline, Char.ofNat 99, newline]

end ui

/-! ## Sample data -/

/-- A chunk at (2, -3) with an untouched grid. -/
def sampleChunk : chunk := ⟨2, -3, []⟩

/-- A chunk at (0, 0) with an untouched grid. -/
def originChunk : chunk := ⟨0, 0, []⟩

/-- A chunk map holding `sampleChunk` and `originChunk` under their own positions. -/
def sampleMap : ChunkMap := ⟨[(⟨2, -3⟩, sampleChunk), (⟨0, 0⟩, originChunk)], by decide⟩

/-- The state of a client that has received nothing yet. -/
def Client.start : Client :=
  { chunkMap := ChunkMap.empty, ready := false, Camera := ⟨0, 0, 0, 0, 0⟩, writeChan := [],
    freed := [], updates := [], spawned := [], pluginSent := [], stdout := [] }

/-- A client whose chunk map is `sampleMap`. -/
def sampleClient : Client := { Client.start with chunkMap := sampleMap }

/-- A choice of the outside functions: block ids are kept as they are, a chunk load
consumes 3 bytes per set bit among the low two bits of the mask, and plugin messages
are accepted. -/
def sampleDeps : Deps :=
  { GetBlockByCombinedID := fun n => ⟨n⟩,
    loadChunk := fun call => 3 * ((call.mask.val % 2 : Nat) + (call.mask.val / 2 % 2 : Nat) : Nat),
    handlePluginMessage := fun _ _ _ s => .ok s,
    cameraYaw := fun y => y,
    cameraPitch := fun p => p }

/-- The same choice, except that decoding a plugin message fails. -/
def failingDeps : Deps :=
  { sampleDeps with handlePluginMessage := fun _ _ _ _ => .error "malformed plugin message" }

/-- An empty, new `ChunkData` for the column (2, -3). -/
def removeSample : protocol.ChunkData :=
  { ChunkX := ⟨2, by decide⟩, ChunkZ := ⟨-3, by decide⟩, New := true, BitMask := 0, Data := [] }

/-- A teleport to bit patterns (1, 2, 3) with yaw 4 and pitch 5. -/
def sampleTeleport : protocol.TeleportPlayer :=
  { X := 1, Y := 2, Z := 3, Yaw := 4, Pitch := 5, Flags := 0 }

/-- A bulk message without records whose buffer still holds one byte. -/
def leftoverBulk : protocol.ChunkDataBulk := { SkyLight := false, Meta := [], Data := [0] }

/-- A bulk message of two records, the first with two sections, on an empty buffer. -/
def overrunBulk : protocol.ChunkDataBulk :=
  { SkyLight := false,
    Meta := [⟨⟨0, by decide⟩, ⟨0, by decide⟩, 3⟩, ⟨⟨1, by decide⟩, ⟨0, by decide⟩, 1⟩],
    Data := [] }

/-- A bulk message of two records of one section each on a buffer of six bytes. -/
def exactBulk : protocol.ChunkDataBulk :=
  { SkyLight := true,
    Meta := [⟨⟨0, by decide⟩, ⟨0, by decide⟩, 1⟩, ⟨⟨1, by decide⟩, ⟨0, by decide⟩, 2⟩],
    Data := [10, 11, 12, 13, 14, 15] }

/-- The chunk a batch leaves behind: the records written in array order. -/
def writeRecords (d : Deps) (ch : chunk) (rs : List protocol.BlockChangeRecord) : chunk :=
  rs.foldl (fun c r => c.setBlock (d.GetBlockByCombinedID (toUint16 r.BlockID.val)) r.x r.y r.z) ch

/-- A record writing block 7 at the local position (1, 64, 2). -/
def recordA : protocol.BlockChangeRecord := ⟨18, 64, ⟨7, by decide⟩⟩

/-- A record writing block 9 at the local position (1, 64, 2). -/
def recordB : protocol.BlockChangeRecord := ⟨18, 64, ⟨9, by decide⟩⟩

/-- A record writing block 1 at the local position (15, 0, 15). -/
def recordC : protocol.BlockChangeRecord := ⟨255, 0, ⟨1, by decide⟩⟩

/-- A batch for the column (2, -3): two writes to the local position (1, 64, 2), then one
to (15, 0, 15). -/
def sampleBatch : protocol.MultiBlockChange :=
  { ChunkX := ⟨2, by decide⟩, ChunkZ := ⟨-3, by decide⟩, Records := [recordA, recordB, recordC] }

/-- A batch for the column (7, 7), which `sampleMap` does not hold. -/
def strayBatch : protocol.MultiBlockChange :=
  { ChunkX := ⟨7, by decide⟩, ChunkZ := ⟨7, by decide⟩, Records := [⟨18, 64, ⟨7, by decide⟩⟩] }

/-- A block change at the global position (117, 64, 113), in the column (7, 7). -/
def strayChange : protocol.BlockChange :=
  { Location := ⟨117, 64, 113⟩, BlockID := ⟨7, by decide⟩ }

/-! ## Lemmas on the chunk map -/

theorem entryLookup_filter_self (p : chunkPosition) (es : List (chunkPosition × chunk)) :
    entryLookup p (es.filter (fun e => decide (e.1 ≠ p))) = none := by
  induction es with
  | nil => rfl
  | cons e rest ih =>
    obtain ⟨k, v⟩ := e
    by_cases hk : k = p
    · rw [List.filter_cons_of_neg (by simp [hk])]
      exact ih
    · rw [List.filter_cons_of_pos (by simp [hk])]
      simp only [entryLookup, hk, if_false]
      exact ih

theorem entryLookup_filter_other (p q : chunkPosition) (hq : q ≠ p)
    (es : List (chunkPosition × chunk)) :
    entryLookup q (es.filter (fun e => decide (e.1 ≠ p))) = entryLookup q es := by
  induction es with
  | nil => rfl
  | cons e rest ih =>
    obtain ⟨k, v⟩ := e
    by_cases hk : k = p
    · have hkq : ¬ k = q := fun h => hq (h ▸ hk)
      rw [List.filter_cons_of_neg (by simp [hk])]
      simp only [entryLookup, hkq, if_false]
      exact ih
    · rw [List.filter_cons_of_pos (by simp [hk])]
      by_cases hkq : k = q
      · simp only [entryLookup, hkq, if_true]
      · simp only [entryLookup, hkq, if_false]
        exact ih

theorem ChunkMap.get_delete_self (m : ChunkMap) (p : chunkPosition) :
    (m.delete p).get p = none :=
  entryLookup_filter_self p m.entries

theorem ChunkMap.get_delete_other (m : ChunkMap) (p q : chunkPosition) (hq : q ≠ p) :
    (m.delete p).get q = m.get q :=
  entryLookup_filter_other p q hq m.entries

/-! ## Respawn and the removal of a column -/

theorem free_fold_freed (es : List (chunkPosition × chunk)) :
    ∀ s : Client, (es.foldl (fun st e => free st e.2) s).freed = s.freed ++ es.map Prod.snd := by
  induction es with
  | nil => intro s; simp
  | cons e rest ih =>
    intro s
    rw [List.foldl_cons, ih]
    simp [free]

theorem Respawn_freed (s : Client) :
    (handler.Respawn s).freed = s.freed ++ s.chunkMap.values :=
  free_fold_freed s.chunkMap.entries s

/-- Claim C1. Whatever the chunk map holds, after `Respawn` the map is empty, and the
calls of `free` made are exactly the chunks the map held, one call per entry: a chunk
is freed as many times as the map had entries holding it, so never when the map did
not hold it, and exactly once when the chunks of the map are pairwise distinct. -/
theorem Respawn_empties_and_frees_each_once (s : Client) :
    (handler.Respawn s).chunkMap.entries = [] ∧
    (∀ p, (handler.Respawn s).chunkMap.get p = none) ∧
    (handler.Respawn s).freed = s.freed ++ s.chunkMap.values ∧
    (s.chunkMap.values).length = s.chunkMap.keys.length ∧
    (∀ c, (handler.Respawn s).freed.count c = s.freed.count c + s.chunkMap.values.count c) ∧
    (∀ c, c ∉ s.chunkMap.values →
      (handler.Respawn s).freed.count c = s.freed.count c) ∧
    (s.chunkMap.values.Nodup → ∀ c ∈ s.chunkMap.values,
      (handler.Respawn s).freed.count c = s.freed.count c + 1) := by
  have hf := Respawn_freed s
  refine ⟨rfl, fun _ => rfl, hf, ?_, ?_, ?_, ?_⟩
  · simp [ChunkMap.values, ChunkMap.keys]
  · intro c
    rw [hf, List.count_append]
  · intro c hc
    rw [hf, List.count_append, List.count_eq_zero_of_not_mem hc, Nat.add_zero]
  · intro hnd c hc
    rw [hf, List.count_append, List.count_eq_one_of_mem hnd hc]

/-- Claim C2. For a `ChunkData` with `BitMask == 0` and `New`: when its position is a
key of the chunk map, the chunk stored there is freed once, the key is deleted, every
other key keeps its chunk and no goroutine is started; when the position is absent,
the whole state is unchanged. -/
theorem ChunkData_empty_new_removes (c : protocol.ChunkData) (s : Client)
    (hmask : c.BitMask.val = 0) (hnew : c.New = true) :
    (∀ ch, s.chunkMap.get ⟨c.ChunkX.val, c.ChunkZ.val⟩ = some ch →
      (handler.ChunkData c s).freed = s.freed ++ [ch] ∧
      (handler.ChunkData c s).chunkMap.get ⟨c.ChunkX.val, c.ChunkZ.val⟩ = none ∧
      (handler.ChunkData c s).chunkMap.entries =
        s.chunkMap.entries.filter (fun e => decide (e.1 ≠ ⟨c.ChunkX.val, c.ChunkZ.val⟩)) ∧
      (∀ q, q ≠ ⟨c.ChunkX.val, c.ChunkZ.val⟩ →
        (handler.ChunkData c s).chunkMap.get q = s.chunkMap.get q) ∧
      (handler.ChunkData c s).spawned = s.spawned ∧
      (handler.ChunkData c s).ready = s.ready ∧
      (handler.ChunkData c s).Camera = s.Camera ∧
      (handler.ChunkData c s).writeChan = s.writeChan ∧
      (handler.ChunkData c s).updates = s.updates) ∧
    (s.chunkMap.get ⟨c.ChunkX.val, c.ChunkZ.val⟩ = none → handler.ChunkData c s = s) := by
  constructor
  · intro ch hch
    have hs : handler.ChunkData c s =
        { s with freed := s.freed ++ [ch],
                 chunkMap := s.chunkMap.delete ⟨c.ChunkX.val, c.ChunkZ.val⟩ } := by
      simp [handler.ChunkData, hmask, hnew, hch, free]
    rw [hs]
    refine ⟨rfl, ?_, rfl, ?_, rfl, rfl, rfl, rfl, rfl⟩
    · exact ChunkMap.get_delete_self _ _
    · intro q hq
      exact ChunkMap.get_delete_other _ _ q hq
  · intro hnone
    simp [handler.ChunkData, hmask, hnew, hnone]

theorem ChunkData_empty_new_removes_witness :
    (handler.ChunkData removeSample sampleClient).freed = [sampleChunk] ∧
    (handler.ChunkData removeSample sampleClient).chunkMap.get ⟨2, -3⟩ = none ∧
    (handler.ChunkData removeSample sampleClient).chunkMap.get ⟨0, 0⟩ = some originChunk :=
  have h := (ChunkData_empty_new_removes removeSample sampleClient rfl rfl).1 sampleChunk rfl
  ⟨h.1, h.2.1, (h.2.2.2.1 ⟨0, 0⟩ (by decide)).trans rfl⟩

/-! ## Dispatch -/

/-- Claim C3. When the table has no entry for the dynamic type of the message, `Handle`
calls nothing and returns normally with the state (chunk map, readiness flag, camera,
outbound queue and every log) exactly as it was. -/
theorem Handle_unregistered_is_noop (h : handler) (packet : Packet) (s : Client)
    (hnone : h packet.typeOf = none) :
    handler.Handle h packet s = .ok s := by
  simp [handler.Handle, hnone]

theorem Handle_unregistered_is_noop_witness :
    handler.Init sampleDeps (Packet.other "KeepAlive").typeOf = none ∧
    handler.Handle (handler.Init sampleDeps) (Packet.other "KeepAlive") sampleClient
      = .ok sampleClient :=
  ⟨rfl, Handle_unregistered_is_noop (handler.Init sampleDeps) (Packet.other "KeepAlive")
    sampleClient rfl⟩

/-- Claim C7, refuted. With a plugin-message decoder that fails, the handler registered
for `PluginMessageClientbound` panics, and `Handle` does not return normally: the same
panic leaves `Handle`. -/
theorem Handle_does_not_catch_panic :
    (∃ m, handler.Init failingDeps (Packet.PluginMessageClientbound "MC|Brand" []).typeOf = some m ∧
      m (Packet.PluginMessageClientbound "MC|Brand" []) Client.start
        = .error "malformed plugin message") ∧
    handler.Handle (handler.Init failingDeps) (Packet.PluginMessageClientbound "MC|Brand" [])
      Client.start = .error "malformed plugin message" ∧
    ¬ ∃ s, handler.Handle (handler.Init failingDeps)
      (Packet.PluginMessageClientbound "MC|Brand" []) Client.start = .ok s := by
  refine ⟨⟨_, rfl, rfl⟩, rfl, ?_⟩
  rintro ⟨s, hs⟩
  have h : handler.Handle (handler.Init failingDeps)
      (Packet.PluginMessageClientbound "MC|Brand" []) Client.start
      = .error "malformed plugin message" := rfl
  rw [h] at hs
  cases hs

/-- Claim C7, amended. `Handle` has no recovery: when the table has an entry for the type
of the message, the outcome of `Handle` is the outcome of that entry; a panic of the
handler is a panic of `Handle`, and `Handle` returns normally exactly when the handler
does. -/
theorem Handle_outcome_is_handler_outcome (h : handler) (packet : Packet) (s : Client)
    (m : Method) (hreg : h packet.typeOf = some m) :
    handler.Handle h packet s = m packet s ∧
    (∀ e, m packet s = .error e → handler.Handle h packet s = .error e) ∧
    (∀ s1, handler.Handle h packet s = .ok s1 ↔ m packet s = .ok s1) := by
  have hh : handler.Handle h packet s = m packet s := by
    simp [handler.Handle, hreg]
  refine ⟨hh, ?_, ?_⟩
  · intro e he
    rw [hh, he]
  · intro s1
    rw [hh]

theorem Handle_outcome_is_handler_outcome_witness :
    handler.Handle (handler.Init sampleDeps) Packet.Respawn sampleClient
      = .ok (handler.Respawn sampleClient) :=
  (Handle_outcome_is_handler_outcome (handler.Init sampleDeps) Packet.Respawn sampleClient
    _ rfl).1.trans rfl

/-! ## Teleport -/

/-- Claim C5. `Teleport` sets the camera X, Y, Z to those of the message and appends to
the outbound queue exactly one `PlayerPositionLook` carrying the X, Y, Z, Yaw and Pitch
of the message; handling a sequence of teleports appends one acknowledgement per
message, in the order handled (equal consecutive messages included). -/
theorem Teleport_sets_camera_and_acks (d : Deps) (t : protocol.TeleportPlayer) (s : Client)
    (ts : List protocol.TeleportPlayer) :
    (handler.Teleport d t s).Camera.X = t.X ∧
    (handler.Teleport d t s).Camera.Y = t.Y ∧
    (handler.Teleport d t s).Camera.Z = t.Z ∧
    (∃ ack : protocol.PlayerPositionLook,
      (handler.Teleport d t s).writeChan = s.writeChan ++ [ack] ∧
      ack.X = t.X ∧ ack.Y = t.Y ∧ ack.Z = t.Z ∧ ack.Yaw = t.Yaw ∧ ack.Pitch = t.Pitch) ∧
    (ts.foldl (fun st u => handler.Teleport d u st) s).writeChan
      = s.writeChan ++ ts.map teleportAck ∧
    (ts.foldl (fun st u => handler.Teleport d u st) s).writeChan.length
      = s.writeChan.length + ts.length ∧
    handler.Handle (handler.Init d) (Packet.TeleportPlayer t) s = .ok (handler.Teleport d t s) := by
  have hfold : ∀ (us : List protocol.TeleportPlayer) (st : Client),
      (us.foldl (fun st u => handler.Teleport d u st) st).writeChan
        = st.writeChan ++ us.map teleportAck := by
    intro us
    induction us with
    | nil => intro st; simp
    | cons u rest ih =>
      intro st
      rw [List.foldl_cons, ih]
      simp [handler.Teleport]
  refine ⟨rfl, rfl, rfl, ⟨teleportAck t, rfl, rfl, rfl, rfl, rfl, rfl⟩, hfold ts s, ?_, rfl⟩
  rw [hfold ts s]
  simp

/-! ## Bulk chunk data -/

theorem goSum_concat (ns : List Int) (n : Int) :
    goSum (ns ++ [n]) = wrapInt (goSum ns + n) := by
  simp [goSum, List.foldl_append]

/-- The loop invariant of `bulkLoop`: with `done` the records already handled, `calls`
the calls made for them and `offset` the sum of what those calls consumed, the run that
continues with `rest` ends as described for the whole list `done ++ rest`. -/
theorem bulkLoop_spec (d : Deps) (data : List byte) (sky : Bool) :
    ∀ (rest done : List protocol.ChunkMeta) (offset : Int) (calls : List LoadCall),
      calls.length = done.length →
      offset = goSum (calls.map d.loadChunk) →
      (∀ i, i < calls.length →
        calls[i]? = (done[i]?).map
          (fun m => bulkCall data sky m (goSum ((calls.take i).map d.loadChunk))) ∧
        0 ≤ goSum ((calls.take i).map d.loadChunk) ∧
        goSum ((calls.take i).map d.loadChunk) ≤ data.length) →
      (bulkLoop d data sky rest offset calls).calls.length ≤ (done ++ rest).length ∧
      ((bulkLoop d data sky rest offset calls).panicked = false →
        (bulkLoop d data sky rest offset calls).calls.length = (done ++ rest).length) ∧
      ((bulkLoop d data sky rest offset calls).panicked = true →
        (bulkLoop d data sky rest offset calls).calls.length < (done ++ rest).length ∧
        ((bulkLoop d data sky rest offset calls).offset < 0 ∨
          (data.length : Int) < (bulkLoop d data sky rest offset calls).offset)) ∧
      (bulkLoop d data sky rest offset calls).offset
        = goSum ((bulkLoop d data sky rest offset calls).calls.map d.loadChunk) ∧
      (∀ i, i < (bulkLoop d data sky rest offset calls).calls.length →
        (bulkLoop d data sky rest offset calls).calls[i]? = ((done ++ rest)[i]?).map
          (fun m => bulkCall data sky m
            (goSum (((bulkLoop d data sky rest offset calls).calls.take i).map d.loadChunk))) ∧
        0 ≤ goSum (((bulkLoop d data sky rest offset calls).calls.take i).map d.loadChunk) ∧
        goSum (((bulkLoop d data sky rest offset calls).calls.take i).map d.loadChunk)
          ≤ data.length) := by
  intro rest
  induction rest with
  | nil =>
    intro done offset calls hlen hoff hidx
    simp only [bulkLoop, List.append_nil]
    exact ⟨by omega, fun _ => hlen, fun h => (by cases h), hoff, hidx⟩
  | cons m rest ih =>
    intro done offset calls hlen hoff hidx
    by_cases hout : offset < 0 ∨ (data.length : Int) < offset
    · have hrun : bulkLoop d data sky (m :: rest) offset calls = ⟨calls, offset, true⟩ := by
        simp only [bulkLoop, hout, if_true]
      rw [hrun]
      have hlt : calls.length < (done ++ m :: rest).length := by
        rw [List.length_append, List.length_cons]
        omega
      refine ⟨Nat.le_of_lt hlt, fun h => (by cases h), fun _ => ⟨hlt, hout⟩, hoff, ?_⟩
      intro i hi
      have hi1 : i < calls.length := hi
      have hi2 : i < done.length := hlen ▸ hi1
      have h := hidx i hi1
      refine ⟨?_, h.2⟩
      rw [List.getElem?_append_left hi2]
      exact h.1
    · have hrun : bulkLoop d data sky (m :: rest) offset calls
          = bulkLoop d data sky rest
              (wrapInt (offset + d.loadChunk (bulkCall data sky m offset)))
              (calls ++ [bulkCall data sky m offset]) := by
        simp only [bulkLoop, hout, if_false]
      rw [hrun]
      have hstep := ih (done ++ [m])
        (wrapInt (offset + d.loadChunk (bulkCall data sky m offset)))
        (calls ++ [bulkCall data sky m offset])
        (by simp [hlen])
        (by rw [List.map_append, List.map_singleton, goSum_concat, ← hoff])
        (by
          intro i hi
          rw [List.length_append, List.length_singleton] at hi
          by_cases hlt : i < calls.length
          · have h := hidx i hlt
            rw [List.getElem?_append_left hlt, List.getElem?_append_left (by omega),
              List.take_append_of_le_length (by omega)]
            exact h
          · have hieq : i = calls.length := by omega
            subst hieq
            rw [List.take_left' rfl, ← hoff, List.getElem?_concat_length, hlen,
              List.getElem?_concat_length]
            refine ⟨rfl, ?_, ?_⟩
            · omega
            · omega)
      rw [List.append_assoc, List.singleton_append] at hstep
      exact hstep

/-- Claim C6, refuted. A bulk message without records on a buffer of one byte: no load is
made, the run ends normally, and the bytes consumed (0) are not the length of the buffer
(1), a leftover nothing checks. A bulk message of two records on an empty buffer, the
first load reporting 6 bytes: the second slice expression panics, so one load is made
for two records. -/
theorem ChunkDataBulk_consumed_not_buffer_length :
    ((bulkBody sampleDeps leftoverBulk).panicked = false ∧
      (bulkBody sampleDeps leftoverBulk).calls.length = leftoverBulk.Meta.length ∧
      (bulkBody sampleDeps leftoverBulk).offset = 0 ∧
      (bulkBody sampleDeps leftoverBulk).offset ≠ (leftoverBulk.Data.length : Int)) ∧
    ((bulkBody sampleDeps overrunBulk).panicked = true ∧
      (bulkBody sampleDeps overrunBulk).calls.length = 1 ∧
      overrunBulk.Meta.length = 2 ∧
      (bulkBody sampleDeps overrunBulk).offset = 6 ∧
      overrunBulk.Data.length = 0) := by
  decide

/-- Claim C6, amended. The handler starts one goroutine. Its body calls `loadChunk` on
the records in `Meta` order, the i-th call receiving the suffix of `Data` that starts at
the sum (in Go `int` arithmetic) of the byte counts the calls before it returned, each
such offset lying within the buffer. It makes all N calls unless it panics, which it
does exactly at a record whose offset is outside the buffer, having made fewer than N
calls. The final offset is the sum of all returned counts; it is not compared with the
length of the buffer. -/
theorem ChunkDataBulk_loads_in_order (d : Deps) (c : protocol.ChunkDataBulk) (s : Client) :
    (handler.ChunkDataBulk c s).spawned = s.spawned ++ [Task.bulk c] ∧
    (bulkBody d c).calls.length ≤ c.Meta.length ∧
    ((bulkBody d c).panicked = false → (bulkBody d c).calls.length = c.Meta.length) ∧
    ((bulkBody d c).panicked = true →
      (bulkBody d c).calls.length < c.Meta.length ∧
      ((bulkBody d c).offset < 0 ∨ (c.Data.length : Int) < (bulkBody d c).offset)) ∧
    (bulkBody d c).offset = goSum ((bulkBody d c).calls.map d.loadChunk) ∧
    (∀ i, i < (bulkBody d c).calls.length →
      (bulkBody d c).calls[i]? = (c.Meta[i]?).map
        (fun m => bulkCall c.Data c.SkyLight m
          (goSum (((bulkBody d c).calls.take i).map d.loadChunk))) ∧
      0 ≤ goSum (((bulkBody d c).calls.take i).map d.loadChunk) ∧
      goSum (((bulkBody d c).calls.take i).map d.loadChunk) ≤ c.Data.length) := by
  have h := bulkLoop_spec d c.Data c.SkyLight c.Meta [] 0 [] rfl rfl
    (fun i hi => absurd hi (Nat.not_lt_zero i))
  rw [List.nil_append] at h
  exact ⟨rfl, h⟩

theorem ChunkDataBulk_loads_in_order_witness :
    (bulkBody sampleDeps exactBulk).panicked = false ∧
    (bulkBody sampleDeps exactBulk).calls.length = 2 ∧
    (bulkBody sampleDeps exactBulk).calls[1]? =
      some ⟨1, 0, [13, 14, 15], 2, true, true⟩ :=
  have h := ChunkDataBulk_loads_in_order sampleDeps exactBulk sampleClient
  ⟨by decide, h.2.2.1 (by decide), ((h.2.2.2.2.2 1 (by decide)).1).trans (by decide)⟩

/-! ## Block changes -/

theorem modifyAt_fst (p : chunkPosition) (f : chunk → chunk) (e : chunkPosition × chunk) :
    (modifyAt p f e).1 = e.1 := by
  by_cases hk : e.1 = p <;> simp [modifyAt, hk]

theorem modifyAt_snd_pos (p : chunkPosition) (f : chunk → chunk) (e : chunkPosition × chunk)
    (hk : e.1 = p) : (modifyAt p f e).2 = f e.2 := by
  simp [modifyAt, hk]

theorem modifyAt_snd_neg (p : chunkPosition) (f : chunk → chunk) (e : chunkPosition × chunk)
    (hk : ¬ e.1 = p) : (modifyAt p f e).2 = e.2 := by
  simp [modifyAt, hk]

theorem entryLookup_cons (q : chunkPosition) (e : chunkPosition × chunk)
    (rest : List (chunkPosition × chunk)) :
    entryLookup q (e :: rest) = if e.1 = q then some e.2 else entryLookup q rest := by
  obtain ⟨k, v⟩ := e
  rfl

theorem entryLookup_map_modify (p q : chunkPosition) (f : chunk → chunk)
    (es : List (chunkPosition × chunk)) :
    entryLookup q (es.map (modifyAt p f))
      = if q = p then (entryLookup q es).map f else entryLookup q es := by
  induction es with
  | nil => simp [entryLookup]
  | cons e rest ih =>
    rw [List.map_cons, entryLookup_cons, entryLookup_cons, modifyAt_fst]
    by_cases hkq : e.1 = q
    · rw [if_pos hkq, if_pos hkq]
      by_cases hqp : q = p
      · rw [if_pos hqp, modifyAt_snd_pos p f e (hkq.trans hqp)]
        rfl
      · rw [if_neg hqp, modifyAt_snd_neg p f e (fun h => hqp (hkq.symm.trans h))]
    · rw [if_neg hkq, if_neg hkq]
      exact ih

theorem ChunkMap.get_modify_self (m : ChunkMap) (p : chunkPosition) (f : chunk → chunk) :
    (m.modify p f).get p = (m.get p).map f := by
  have h := entryLookup_map_modify p p f m.entries
  simpa [ChunkMap.get, ChunkMap.modify] using h

theorem ChunkMap.get_modify_other (m : ChunkMap) (p q : chunkPosition) (f : chunk → chunk)
    (hq : q ≠ p) : (m.modify p f).get q = m.get q := by
  have h := entryLookup_map_modify p q f m.entries
  simpa [ChunkMap.get, ChunkMap.modify, hq] using h

theorem ChunkMap.keys_modify (m : ChunkMap) (p : chunkPosition) (f : chunk → chunk) :
    (m.modify p f).keys = m.keys := by
  simp only [ChunkMap.keys, ChunkMap.modify, List.map_map]
  apply List.map_congr_left
  intro e _
  exact modifyAt_fst p f e

/-- What the loop of `SetBlockBatch` does to a state whose map holds `ch` under `pos`. -/
theorem batch_fold_spec (d : Deps) (pos : chunkPosition) :
    ∀ (rs : List protocol.BlockChangeRecord) (s : Client) (ch : chunk),
      s.chunkMap.get pos = some ch →
      (rs.foldl (batchStep d pos) s).chunkMap.get pos = some (writeRecords d ch rs) ∧
      (rs.foldl (batchStep d pos) s).updates
        = s.updates ++ rs.map (fun r => (globalX ch r.x, r.y, globalZ ch r.z)) ∧
      (∀ q, q ≠ pos → (rs.foldl (batchStep d pos) s).chunkMap.get q = s.chunkMap.get q) ∧
      (rs.foldl (batchStep d pos) s).chunkMap.keys = s.chunkMap.keys ∧
      (rs.foldl (batchStep d pos) s).freed = s.freed ∧
      (rs.foldl (batchStep d pos) s).spawned = s.spawned ∧
      (rs.foldl (batchStep d pos) s).ready = s.ready ∧
      (rs.foldl (batchStep d pos) s).Camera = s.Camera ∧
      (rs.foldl (batchStep d pos) s).writeChan = s.writeChan := by
  intro rs
  induction rs with
  | nil =>
    intro s ch hch
    simp [writeRecords, hch]
  | cons r rest ih =>
    intro s ch hch
    have hstep : batchStep d pos s r =
        UpdateBlock { s with chunkMap := (s.chunkMap.modify pos
            (fun c => c.setBlock (d.GetBlockByCombinedID (toUint16 r.BlockID.val)) r.x r.y r.z)) }
          (globalX ch r.x) r.y (globalZ ch r.z) := by
      simp [batchStep, hch]
    have hget : (batchStep d pos s r).chunkMap.get pos
        = some (ch.setBlock (d.GetBlockByCombinedID (toUint16 r.BlockID.val)) r.x r.y r.z) := by
      rw [hstep]
      simp only [UpdateBlock]
      rw [ChunkMap.get_modify_self, hch]
      rfl
    have h := ih (batchStep d pos s r) _ hget
    rw [List.foldl_cons]
    refine ⟨h.1, ?_, ?_, ?_, ?_, ?_, ?_, ?_, ?_⟩
    · rw [h.2.1, hstep]
      simp [UpdateBlock, globalX, globalZ, chunk.setBlock]
    · intro q hq
      rw [h.2.2.1 q hq, hstep]
      simp only [UpdateBlock]
      exact ChunkMap.get_modify_other _ _ _ _ hq
    · rw [h.2.2.2.1, hstep]
      simp only [UpdateBlock]
      exact ChunkMap.keys_modify _ _ _
    · rw [h.2.2.2.2.1, hstep]; rfl
    · rw [h.2.2.2.2.2.1, hstep]; rfl
    · rw [h.2.2.2.2.2.2.1, hstep]; rfl
    · rw [h.2.2.2.2.2.2.2.1, hstep]; rfl
    · rw [h.2.2.2.2.2.2.2.2, hstep]; rfl

theorem gridLookup_cons (p q : Int × Int × Int) (b : Block)
    (rest : List ((Int × Int × Int) × Block)) :
    gridLookup p ((q, b) :: rest) = if q = p then some b else gridLookup p rest := rfl

theorem block_setBlock_same (c : chunk) (b : Block) (x y z : Int) :
    (c.setBlock b x y z).block x y z = b := by
  simp [chunk.block, chunk.setBlock, gridLookup_cons]

theorem block_setBlock_other (c : chunk) (b : Block) (x y z x1 y1 z1 : Int)
    (h : ¬ (x = x1 ∧ y = y1 ∧ z = z1)) :
    (c.setBlock b x y z).block x1 y1 z1 = c.block x1 y1 z1 := by
  have hne : ¬ ((x, y, z) = (x1, y1, z1)) := by
    intro he
    apply h
    simp only [Prod.mk.injEq] at he
    exact he
  simp only [chunk.block, chunk.setBlock, gridLookup_cons, hne, if_false]

theorem writeRecords_cons (d : Deps) (ch : chunk) (r : protocol.BlockChangeRecord)
    (rest : List protocol.BlockChangeRecord) :
    writeRecords d ch (r :: rest)
      = writeRecords d
          (ch.setBlock (d.GetBlockByCombinedID (toUint16 r.BlockID.val)) r.x r.y r.z) rest := rfl

theorem writeRecords_append (d : Deps) (ch : chunk) (pre post : List protocol.BlockChangeRecord) :
    writeRecords d ch (pre ++ post) = writeRecords d (writeRecords d ch pre) post := by
  simp [writeRecords, List.foldl_append]

theorem writeRecords_untargeted (d : Deps) (x y z : Int) :
    ∀ (rs : List protocol.BlockChangeRecord) (ch : chunk),
      (∀ r ∈ rs, ¬ (r.x = x ∧ r.y = y ∧ r.z = z)) →
      (writeRecords d ch rs).block x y z = ch.block x y z := by
  intro rs
  induction rs with
  | nil => intro ch _; rfl
  | cons r rest ih =>
    intro ch h
    rw [writeRecords_cons, ih _ (fun r1 hr1 => h r1 (List.mem_cons_of_mem r hr1))]
    exact block_setBlock_other ch _ r.x r.y r.z x y z (h r (List.mem_cons_self r rest))

/-- Claim C4. For a `MultiBlockChange` whose chunk is loaded, `SetBlockBatch` leaves at the
message's position a chunk in which every local position targeted by a record holds the
block `GetBlockByCombinedID(uint16(BlockID))` of the last record of the array that
targets it (a record after which no record targets the same position), and every
position targeted by no record holds the block it held before; the other chunks are
untouched. -/
theorem SetBlockBatch_last_write_wins (d : Deps) (b : protocol.MultiBlockChange) (s : Client)
    (ch : chunk) (hch : s.chunkMap.get ⟨b.ChunkX.val, b.ChunkZ.val⟩ = some ch) :
    ∃ ch1, (handler.SetBlockBatch d b s).chunkMap.get ⟨b.ChunkX.val, b.ChunkZ.val⟩ = some ch1 ∧
      (∀ pre r post, b.Records = pre ++ r :: post →
        (∀ r1 ∈ post, ¬ (r1.x = r.x ∧ r1.y = r.y ∧ r1.z = r.z)) →
        ch1.block r.x r.y r.z = d.GetBlockByCombinedID (toUint16 r.BlockID.val)) ∧
      (∀ x y z, (∀ r ∈ b.Records, ¬ (r.x = x ∧ r.y = y ∧ r.z = z)) →
        ch1.block x y z = ch.block x y z) ∧
      (∀ q, q ≠ ⟨b.ChunkX.val, b.ChunkZ.val⟩ →
        (handler.SetBlockBatch d b s).chunkMap.get q = s.chunkMap.get q) ∧
      (handler.SetBlockBatch d b s).chunkMap.keys = s.chunkMap.keys := by
  have hrun : handler.SetBlockBatch d b s
      = b.Records.foldl (batchStep d ⟨b.ChunkX.val, b.ChunkZ.val⟩) s := by
    simp [handler.SetBlockBatch, hch]
  have h := batch_fold_spec d ⟨b.ChunkX.val, b.ChunkZ.val⟩ b.Records s ch hch
  rw [hrun]
  refine ⟨writeRecords d ch b.Records, h.1, ?_, ?_, h.2.2.1, h.2.2.2.1⟩
  · intro pre r post hsplit hlast
    rw [hsplit, writeRecords_append, writeRecords_cons,
      writeRecords_untargeted d r.x r.y r.z post _ hlast]
    exact block_setBlock_same _ _ _ _ _
  · intro x y z hnone
    exact writeRecords_untargeted d x y z b.Records ch hnone

theorem SetBlockBatch_last_write_wins_witness :
    ∃ ch1, (handler.SetBlockBatch sampleDeps sampleBatch sampleClient).chunkMap.get ⟨2, -3⟩
        = some ch1 ∧
      ch1.block 1 64 2 = ⟨9⟩ ∧ ch1.block 15 0 15 = ⟨1⟩ ∧ ch1.block 0 0 0 = Block.air := by
  obtain ⟨ch1, hget, hlast, hrest, _⟩ :=
    SetBlockBatch_last_write_wins sampleDeps sampleBatch sampleClient sampleChunk rfl
  refine ⟨ch1, hget, ?_, ?_, ?_⟩
  · exact hlast [recordA] recordB [recordC] rfl (by decide)
  · exact hlast [recordA, recordB] recordC [] rfl (by decide)
  · exact (hrest 0 0 0 (by decide)).trans rfl

/-- The guarded sibling path: for a `MultiBlockChange` whose chunk is not loaded,
`SetBlockBatch` returns at once, so no block is written, no chunk is created and no
`UpdateBlock` is issued. -/
theorem SetBlockBatch_unloaded_returns (d : Deps) (b : protocol.MultiBlockChange) (s : Client)
    (hnone : s.chunkMap.get ⟨b.ChunkX.val, b.ChunkZ.val⟩ = none) :
    handler.SetBlockBatch d b s = s := by
  simp [handler.SetBlockBatch, hnone]

/-- Claim C8, at the failing input. The column (7, 7) is not loaded. `SetBlockBatch` for
that column issues no `UpdateBlock` and leaves the loaded columns as they are, but
`SetBlock` for a block change at (117, 64, 113), which lies in that column, issues an
`UpdateBlock` at (117, 64, 113): its call of `chunkMap.UpdateBlock` has no guard. -/
theorem SetBlock_unloaded_still_updates :
    sampleClient.chunkMap.get ⟨strayChange.Location.X >>> (4 : Nat),
      strayChange.Location.Z >>> (4 : Nat)⟩ = none ∧
    sampleClient.chunkMap.get ⟨strayBatch.ChunkX.val, strayBatch.ChunkZ.val⟩ = none ∧
    sampleClient.updates = [] ∧
    (handler.SetBlockBatch sampleDeps strayBatch sampleClient).updates = [] ∧
    (handler.SetBlockBatch sampleDeps strayBatch sampleClient).chunkMap.keys
      = sampleClient.chunkMap.keys ∧
    (handler.SetBlock sampleDeps strayChange sampleClient).updates = [(117, 64, 113)] ∧
    (handler.SetBlock sampleDeps strayChange sampleClient).updates ≠ sampleClient.updates := by
  decide

/-! ## Coordinates of a batch -/

theorem wrapInt_of_inRange (n : Int) (hlo : -9223372036854775808 ≤ n)
    (hhi : n < 9223372036854775808) : wrapInt n = n := by
  unfold wrapInt
  omega

theorem record_x_range (r : protocol.BlockChangeRecord) : 0 ≤ r.x ∧ r.x ≤ 15 := by
  have hb : r.XZ.val < 256 := r.XZ.isLt
  have h : r.XZ.val >>> 4 = r.XZ.val / 2 ^ 4 := Nat.shiftRight_eq_div_pow _ _
  unfold protocol.BlockChangeRecord.x
  rw [h]
  omega

theorem record_z_range (r : protocol.BlockChangeRecord) : 0 ≤ r.z ∧ r.z ≤ 15 := by
  have h : r.XZ.val &&& 0xF = r.XZ.val % 2 ^ 4 := Nat.and_pow_two_sub_one_eq_mod _ 4
  unfold protocol.BlockChangeRecord.z
  rw [h]
  omega

theorem global_of_int32 (X : int32) (v : Int) (h0 : 0 ≤ v) (h15 : v ≤ 15) :
    wrapInt (wrapInt (X.val * 16) + v) = X.val * 16 + v ∧
    (X.val * 16 + v) >>> (4 : Nat) = X.val ∧
    (X.val * 16 + v) % 16 = v := by
  have hlo := X.property.1
  have hhi := X.property.2
  have hshift : (X.val * 16 + v) >>> (4 : Nat) = (X.val * 16 + v) / 16 := by
    rw [Int.shiftRight_eq_div_pow]
    norm_num
  rw [wrapInt_of_inRange (X.val * 16) (by omega) (by omega),
    wrapInt_of_inRange (X.val * 16 + v) (by omega) (by omega), hshift]
  refine ⟨rfl, ?_, ?_⟩ <;> omega

/-- Claim C9. For a `MultiBlockChange` on a loaded chunk whose coordinates are those of the
message, positive or negative: `SetBlockBatch` issues exactly one `UpdateBlock` per record,
in array order, at ((X<<4)+x, Y, (Z<<4)+z) with x = XZ>>4 and z = XZ&0xF; both x and z lie
in 0..15, the shifts do not overflow, the arithmetic shift right by 4 of the global x and
z gives back (X, Z), and their low 4 bits (the remainder modulo 16) are x and z. -/
theorem SetBlockBatch_update_positions (d : Deps) (b : protocol.MultiBlockChange) (s : Client)
    (ch : chunk) (hch : s.chunkMap.get ⟨b.ChunkX.val, b.ChunkZ.val⟩ = some ch)
    (hX : ch.X = b.ChunkX.val) (hZ : ch.Z = b.ChunkZ.val) :
    (handler.SetBlockBatch d b s).updates
      = s.updates ++ b.Records.map (fun r => (globalX ch r.x, r.y, globalZ ch r.z)) ∧
    (handler.SetBlockBatch d b s).updates.length = s.updates.length + b.Records.length ∧
    (∀ r ∈ b.Records,
      (0 ≤ r.x ∧ r.x ≤ 15) ∧ (0 ≤ r.z ∧ r.z ≤ 15) ∧
      globalX ch r.x = b.ChunkX.val * 16 + r.x ∧
      globalZ ch r.z = b.ChunkZ.val * 16 + r.z ∧
      globalX ch r.x >>> (4 : Nat) = b.ChunkX.val ∧
      globalZ ch r.z >>> (4 : Nat) = b.ChunkZ.val ∧
      globalX ch r.x % 16 = r.x ∧
      globalZ ch r.z % 16 = r.z) := by
  have hrun : handler.SetBlockBatch d b s
      = b.Records.foldl (batchStep d ⟨b.ChunkX.val, b.ChunkZ.val⟩) s := by
    simp [handler.SetBlockBatch, hch]
  have h := batch_fold_spec d ⟨b.ChunkX.val, b.ChunkZ.val⟩ b.Records s ch hch
  rw [hrun]
  refine ⟨h.2.1, ?_, ?_⟩
  · rw [h.2.1]
    simp
  · intro r _
    have hx := record_x_range r
    have hz := record_z_range r
    have gx := global_of_int32 b.ChunkX r.x hx.1 hx.2
    have gz := global_of_int32 b.ChunkZ r.z hz.1 hz.2
    unfold globalX globalZ
    rw [hX, hZ, gx.1, gz.1]
    exact ⟨hx, hz, rfl, rfl, gx.2.1, gz.2.1, gx.2.2, gz.2.2⟩

theorem SetBlockBatch_update_positions_witness :
    (handler.SetBlockBatch sampleDeps sampleBatch sampleClient).updates
      = [(33, 64, -46), (33, 64, -46), (47, 0, -33)] ∧
    ((-46 : Int) >>> (4 : Nat) = -3 ∧ (-46 : Int) % 16 = 2) :=
  have h := SetBlockBatch_update_positions sampleDeps sampleBatch sampleClient sampleChunk
    rfl rfl rfl
  ⟨h.1.trans (by decide), by decide⟩

/-! ## Formatted text -/

namespace ui

theorem slice_of_handled (pre post : List Char) (lo : Nat) (hlo : lo ≤ pre.length) :
    slice (pre ++ post) lo pre.length = pre.drop lo := by
  unfold slice
  rw [List.drop_append_of_le_length hlo]
  exact List.take_left' (List.length_drop lo pre)

theorem withoutNewlines_concat (pre : List Char) (r : Char) :
    withoutNewlines (pre ++ [r]) = withoutNewlines pre ++ (if r = newline then [] else [r]) := by
  unfold withoutNewlines
  rw [List.filter_append]
  by_cases hr : r = newline <;> simp [hr]

theorem widen_f {F : Type} (M : Metrics F) (ls : LoopState F) (s : F) :
    (widen M ls s).st.f = ls.st.f := by
  unfold widen
  dsimp only
  split <;> rfl

theorem widen_lines {F : Type} (M : Metrics F) (ls : LoopState F) (s : F) :
    (widen M ls s).st.lines = ls.st.lines := by
  unfold widen
  dsimp only
  split <;> rfl

theorem appendStep_of_break {F : Type} (M : Metrics F) (text : List Char) (color : Color)
    (ls : LoopState F) (i : Nat) (r : Char) (h : breaksAt M ls r = true) :
    (appendStep M text color ls i r).last = (if r = newline then i + 1 else i) ∧
    (appendStep M text color ls i r).st.f.Text = ls.st.f.Text ++
      [NewText M (slice text ls.last i) ls.st.offset (M.ofInt (ls.st.lines * 18 + 1))
        (colorRGB color)] ∧
    (appendStep M text color ls i r).st.lines = ls.st.lines + 1 ∧
    (appendStep M text color ls i r).st.f.MaxWidth = ls.st.f.MaxWidth := by
  unfold appendStep
  rw [h, if_pos rfl, widen_f, widen_lines]
  refine ⟨?_, rfl, rfl, rfl⟩
  by_cases hr : r = newline <;> simp [widen, breakLine, hr]

theorem appendStep_of_no_break {F : Type} (M : Metrics F) (text : List Char) (color : Color)
    (ls : LoopState F) (i : Nat) (r : Char) (h : breaksAt M ls r = false) :
    (appendStep M text color ls i r).last = ls.last ∧
    (appendStep M text color ls i r).st.f = ls.st.f ∧
    (appendStep M text color ls i r).st.lines = ls.st.lines := by
  unfold appendStep
  rw [h, if_neg Bool.false_ne_true, widen_f, widen_lines]
  exact ⟨rfl, rfl, rfl⟩

theorem breaksAt_unbounded {F : Type} (M : Metrics F) (ls : LoopState F) (r : Char)
    (h : M.gt ls.st.f.MaxWidth M.zero = false) : breaksAt M ls r = (r == newline) := by
  simp [breaksAt, h]

theorem not_newline_of_no_break {F : Type} (M : Metrics F) (ls : LoopState F) (r : Char)
    (h : breaksAt M ls r = false) : r ≠ newline := by
  intro hr
  have hb : breaksAt M ls r = true := by
    simp [breaksAt, hr]
  rw [h] at hb
  exact Bool.false_ne_true hb

/-- One turn of the loop of `appendText` keeps the invariant. -/
theorem LoopInv_step {F : Type} (M : Metrics F) (text : List Char) (color : Color)
    (T0 : List (Text F)) (L0 : Int) (MW : F) (pre rest : List Char) (r : Char)
    (ls : LoopState F) (segs : List (Text F)) (htext : text = pre ++ r :: rest)
    (inv : LoopInv M T0 L0 MW pre ls segs) :
    ∃ segs1, LoopInv M T0 L0 MW (pre ++ [r]) (appendStep M text color ls pre.length r) segs1 := by
  have hlast := inv.last_le
  cases hb : breaksAt M ls r with
  | true =>
    obtain ⟨hl, ht, hlines, hmw⟩ := appendStep_of_break M text color ls pre.length r hb
    have hslice : slice text ls.last pre.length = pre.drop ls.last := by
      rw [htext]
      exact slice_of_handled pre (r :: rest) ls.last hlast
    refine ⟨segs ++ [NewText M (slice text ls.last pre.length) ls.st.offset
      (M.ofInt (ls.st.lines * 18 + 1)) (colorRGB color)], ?_⟩
    have hdrop : (pre ++ [r]).drop (appendStep M text color ls pre.length r).last
        = if r = newline then [] else [r] := by
      rw [hl]
      by_cases hr : r = newline
      · rw [if_pos hr, if_pos hr]
        apply List.drop_eq_nil_of_le
        simp
      · rw [if_neg hr, if_neg hr]
        exact List.drop_left pre [r]
    constructor
    · rw [hl, List.length_append, List.length_singleton]
      by_cases hr : r = newline
      · rw [if_pos hr]
      · rw [if_neg hr]
        omega
    · rw [ht, inv.texts, List.append_assoc]
    · rw [hdrop, List.map_append, List.flatten_append, List.map_singleton,
        List.flatten_singleton, withoutNewlines_concat, ← inv.joined]
      simp only [NewText]
      rw [hslice]
    · intro t ht1
      rcases List.mem_append.mp ht1 with hin | hin
      · exact inv.clean t hin
      · rw [List.mem_singleton] at hin
        rw [hin]
        simp only [NewText]
        rw [hslice]
        exact inv.pending
    · rw [hdrop]
      by_cases hr : r = newline
      · rw [if_pos hr]
        exact List.not_mem_nil _
      · rw [if_neg hr, List.mem_singleton]
        exact fun h => hr h.symm
    · rw [hlines, inv.counted, List.length_append, List.length_singleton]
      push_cast
      ring
    · rw [hmw]
      exact inv.maxw
    · intro hgt
      have hb2 := breaksAt_unbounded M ls r (by rw [inv.maxw]; exact hgt)
      rw [hb] at hb2
      have hr : r = newline := by
        have := hb2.symm
        simpa using this
      rw [List.length_append, List.length_singleton, List.count_append, inv.breaks hgt, hr]
      simp
  | false =>
    obtain ⟨hl, hf, hlines⟩ := appendStep_of_no_break M text color ls pre.length r hb
    have hr : r ≠ newline := not_newline_of_no_break M ls r hb
    have hdrop : (pre ++ [r]).drop (appendStep M text color ls pre.length r).last
        = pre.drop ls.last ++ [r] := by
      rw [hl]
      exact List.drop_append_of_le_length hlast
    refine ⟨segs, ?_⟩
    constructor
    · rw [hl, List.length_append, List.length_singleton]
      omega
    · rw [hf]
      exact inv.texts
    · rw [hdrop, withoutNewlines_concat, if_neg hr, ← inv.joined, List.append_assoc]
    · exact inv.clean
    · rw [hdrop]
      intro hmem
      rcases List.mem_append.mp hmem with hin | hin
      · exact inv.pending hin
      · rw [List.mem_singleton] at hin
        exact hr hin.symm
    · rw [hlines]
      exact inv.counted
    · rw [hf]
      exact inv.maxw
    · intro hgt
      rw [List.count_append, inv.breaks hgt]
      simp [List.count_singleton, hr]

/-- The loop of `appendText` keeps the invariant up to the end of the text. -/
theorem appendLoop_inv {F : Type} (M : Metrics F) (text : List Char) (color : Color)
    (T0 : List (Text F)) (L0 : Int) (MW : F) :
    ∀ (rest pre : List Char) (ls : LoopState F) (segs : List (Text F)),
      text = pre ++ rest → LoopInv M T0 L0 MW pre ls segs →
      ∃ segs1, LoopInv M T0 L0 MW text (appendLoop M text color rest pre.length ls) segs1 := by
  intro rest
  induction rest with
  | nil =>
    intro pre ls segs htext inv
    rw [List.append_nil] at htext
    rw [htext]
    exact ⟨segs, inv⟩
  | cons r rest ih =>
    intro pre ls segs htext inv
    obtain ⟨segs1, inv1⟩ := LoopInv_step M text color T0 L0 MW pre rest r ls segs htext inv
    have hlen : (pre ++ [r]).length = pre.length + 1 := by simp
    have h := ih (pre ++ [r]) (appendStep M text color ls pre.length r) segs1
      (by rw [htext, List.append_assoc, List.singleton_append]) inv1
    rw [hlen] at h
    exact h

/-- Claim C10. For every text, every `MaxWidth` and every starting state, `appendText`
appends `Text` elements (those of the loop, then at most one after it) whose strings,
concatenated in order, are the text with every line feed removed, none of them holding
a line feed; the line counter grows by exactly the number of elements appended inside
the loop, and that number is the number of line feeds of the text when the test
`MaxWidth > 0` fails, as it does for `MaxWidth <= 0`. -/
theorem appendText_keeps_every_rune {F : Type} (M : Metrics F) (text : List Char)
    (color : Color) (st : formatState F) :
    ∃ loopSegs tailSegs : List (Text F),
      (appendTextLoop M text color st).st.f.Text = st.f.Text ++ loopSegs ∧
      (formatState.appendText M text color st).f.Text = st.f.Text ++ (loopSegs ++ tailSegs) ∧
      tailSegs.length ≤ 1 ∧
      ((loopSegs ++ tailSegs).map Text.value).flatten = text.filter (fun c => !(c == newline)) ∧
      (∀ t ∈ loopSegs ++ tailSegs, newline ∉ t.value) ∧
      (formatState.appendText M text color st).lines = st.lines + (loopSegs.length : Int) ∧
      (M.gt st.f.MaxWidth M.zero = false → loopSegs.length = text.count newline) := by
  have hinit : LoopInv M st.f.Text st.lines st.f.MaxWidth []
      { st := st, width := M.zero, last := 0 } [] := by
    constructor
    · exact Nat.le_refl _
    · simp
    · rfl
    · intro t ht
      exact absurd ht (List.not_mem_nil t)
    · exact List.not_mem_nil _
    · simp
    · rfl
    · intro _
      rfl
  obtain ⟨segs, inv⟩ := appendLoop_inv M text color st.f.Text st.lines st.f.MaxWidth text []
    { st := st, width := M.zero, last := 0 } [] rfl hinit
  have hloop : appendLoop M text color text 0 { st := st, width := M.zero, last := 0 }
      = appendTextLoop M text color st := rfl
  rw [List.length_nil, hloop] at inv
  by_cases hend : (appendTextLoop M text color st).last = text.length
  · have hrun : formatState.appendText M text color st = (appendTextLoop M text color st).st := by
      simp [formatState.appendText, hend]
    have hj := inv.joined
    rw [hend, List.drop_length, List.append_nil] at hj
    refine ⟨segs, [], inv.texts, ?_, Nat.zero_le 1, ?_, ?_, ?_, inv.breaks⟩
    · rw [hrun, List.append_nil]
      exact inv.texts
    · rw [List.append_nil]
      exact hj
    · rw [List.append_nil]
      exact inv.clean
    · rw [hrun]
      exact inv.counted
  · have hrun : formatState.appendText M text color st =
        { f := { MaxWidth := (appendTextLoop M text color st).st.f.MaxWidth,
                 Text := (appendTextLoop M text color st).st.f.Text ++
                   [NewText M (text.drop (appendTextLoop M text color st).last)
                     (appendTextLoop M text color st).st.offset
                     (M.ofInt ((appendTextLoop M text color st).st.lines * 18 + 1))
                     (colorRGB color)] },
          lines := (appendTextLoop M text color st).st.lines,
          offset := M.add (appendTextLoop M text color st).st.offset
            (M.add (NewText M (text.drop (appendTextLoop M text color st).last)
              (appendTextLoop M text color st).st.offset
              (M.ofInt ((appendTextLoop M text color st).st.lines * 18 + 1))
              (colorRGB color)).Width M.two),
          width := if M.gt (M.add (appendTextLoop M text color st).st.offset
              (M.add (NewText M (text.drop (appendTextLoop M text color st).last)
                (appendTextLoop M text color st).st.offset
                (M.ofInt ((appendTextLoop M text color st).st.lines * 18 + 1))
                (colorRGB color)).Width M.two)) (appendTextLoop M text color st).st.width
            then M.add (appendTextLoop M text color st).st.offset
              (M.add (NewText M (text.drop (appendTextLoop M text color st).last)
                (appendTextLoop M text color st).st.offset
                (M.ofInt ((appendTextLoop M text color st).st.lines * 18 + 1))
                (colorRGB color)).Width M.two)
            else (appendTextLoop M text color st).st.width } := by
      simp [formatState.appendText, hend]
    rw [hrun]
    refine ⟨segs, [NewText M (text.drop (appendTextLoop M text color st).last)
      (appendTextLoop M text color st).st.offset
      (M.ofInt ((appendTextLoop M text color st).st.lines * 18 + 1)) (colorRGB color)],
      inv.texts, ?_, Nat.le_refl 1, ?_, ?_, inv.counted, inv.breaks⟩
    · show (appendTextLoop M text color st).st.f.Text ++ _ = _
      rw [inv.texts, List.append_assoc]
    · rw [List.map_append, List.flatten_append, List.map_singleton, List.flatten_singleton]
      exact inv.joined
    · intro t ht
      rcases List.mem_append.mp ht with hin | hin
      · exact inv.clean t hin
      · rw [List.mem_singleton] at hin
        rw [hin]
        exact inv.pending

theorem appendText_keeps_every_rune_witness :
    (formatState.appendText intMetrics sampleText Color.White freshState).f.Text.map Text.value
      = [[Char.ofNat 97, Char.ofNat 98], [Char.ofNat 99]] ∧
    (formatState.appendText intMetrics sampleText Color.White freshState).lines = 2 ∧
    ∃ loopSegs tailSegs : List (Text Int),
      (formatState.appendText intMetrics sampleText Color.White freshState).f.Text
        = freshState.f.Text ++ (loopSegs ++ tailSegs) ∧
      loopSegs.length = sampleText.count newline := by
  obtain ⟨loopSegs, tailSegs, _, htext, _, _, _, _, hcount⟩ :=
    appendText_keeps_every_rune intMetrics sampleText Color.White freshState
  exact ⟨by decide, by decide, loopSegs, tailSegs, htext, hcount (by decide)⟩

end ui

end Steven
